import Mathlib

/-!
Verification development for the mask segmentation engine of the
medical_vision repository (src/src/segmentation.cpp,
src/include/medical_vision/segmentation.hpp, and the segmentation
implementation embedded in src/src/chest_x_ray_analyzer.cpp).

Images are shallowly embedded as width/height plus an intensity function on
integer coordinates (cv::Mat of type CV_8UC1, accessed as
mat.at<uchar>(y, x) with cv::Point (x, y)).  C++ doubles are modelled as
rationals; all executable arithmetic is carried out on integers (byte
rounding and saturation are spelled out explicitly).  OpenCV library
primitives whose numerics are pure mathematics (threshold, Otsu, erosion,
dilation, addWeighted) are embedded directly; the two black-box primitives
(cv::distanceTransform composed with cv::normalize, and the cv::watershed
flood) enter as explicit function parameters, so theorems about the
surrounding repository code quantify over them.
-/

namespace MedicalVision

/-- A pixel coordinate: cv::Point (x, y) with integer coordinates. -/
abbrev Pt : Type := ℤ × ℤ

/-- A single-channel 8-bit image: width, height and the intensity function.
Models a CV_8UC1 cv::Mat; coordinates outside the domain carry junk that no
embedded operation reads. -/
structure Img where
  w : ℕ
  h : ℕ
  pix : Pt → ℕ

/-- The empty matrix cv::Mat() (0 x 0), the value of `result` in
Segmentation::segment when no case of the switch assigns it. -/
def emptyImg : Img := ⟨0, 0, fun _ => 0⟩

/-- Bounds predicate for a pixel access at cv::Point p on a w x h matrix:
0 <= p.x < cols and 0 <= p.y < rows (segmentation.cpp lines 156-158). -/
def inB (w h : ℕ) (p : Pt) : Prop :=
  0 ≤ p.1 ∧ p.1 < (w : ℤ) ∧ 0 ≤ p.2 ∧ p.2 < (h : ℤ)

instance (w h : ℕ) (p : Pt) : Decidable (inB w h p) := by
  unfold inB; infer_instance

/-- The set of in-bounds coordinates of a w x h image. -/
def domain (w h : ℕ) : Finset Pt :=
  ((Finset.range w) ×ˢ (Finset.range h)).image
    (fun ab => ((ab.1 : ℤ), (ab.2 : ℤ)))

/-! ### Byte arithmetic helpers (cvRound / saturate_cast / cvFloor / cvCeil) -/

/-- Round-half-to-even of the fraction n / d (d > 0): the semantics of
cvRound on an exact value. -/
def roundHalfEven (n : ℤ) (d : ℕ) : ℤ :=
  let q := Int.ediv n d
  let r := n - q * d
  if 2 * r < (d : ℤ) then q
  else if (d : ℤ) < 2 * r then q + 1
  else if 2 ∣ q then q else q + 1

/-- saturate_cast<uchar> applied to the exact value n / d: round half to
even, then clamp to [0, 255]. -/
def byteClampRound (n : ℤ) (d : ℕ) : ℕ :=
  (min 255 (max 0 (roundHalfEven n d))).toNat

/-- saturate_cast<uchar> of a double, the double modelled as an exact
rational. -/
def satCastQ (q : ℚ) : ℕ := byteClampRound q.num q.den

/-- cvFloor of a double modelled as a rational (denominator positive, so
Int.ediv is the mathematical floor). -/
def floorQ (q : ℚ) : ℤ := Int.ediv q.num q.den

/-- cvCeil of a double modelled as a rational. -/
def ceilQ (q : ℚ) : ℤ := -Int.ediv (-q.num) q.den

/-! ### ThresholdEngine (segmentation.cpp lines 91-122) -/

/-- Segmentation::ThresholdParams (segmentation.hpp lines 26-30). -/
structure ThresholdParams where
  threshold : ℚ := 128
  maxValue : ℚ := 255
  invertColors : Bool := false

/-- Segmentation::AdaptiveParams (segmentation.hpp lines 32-37). -/
structure AdaptiveParams where
  blockSize : ℕ := 11
  C : ℚ := 2
  maxValue : ℚ := 255
  invertColors : Bool := false

/-- cv::threshold on a CV_8UC1 image with THRESH_BINARY / THRESH_BINARY_INV:
the threshold double is quantized with cvFloor, maxval with
saturate_cast<uchar>(cvRound .); dst = src > floor(thresh) ? maxval : 0
(swapped for the inverted variant).  Segmentation::threshold,
segmentation.cpp lines 91-99. -/
def thresholdOp (img : Img) (p : ThresholdParams) : Img :=
  ⟨img.w, img.h, fun pt =>
    if (img.pix pt : ℤ) > floorQ p.threshold then
      (if p.invertColors then 0 else satCastQ p.maxValue)
    else
      (if p.invertColors then satCastQ p.maxValue else 0)⟩

/-- Histogram count of one intensity value over the image domain. -/
def histCount (img : Img) (i : ℕ) : ℕ :=
  ((domain img.w img.h).filter (fun p => img.pix p = i)).card

/-- One step of the Otsu scan: the accumulator carries
(w0, s0, bestT, bestNum, bestDen) where w0 / s0 are the pixel count and
intensity sum of the class {intensity <= i} and bestNum / bestDen is the
largest between-class variance w0*w1*(mu0-mu1)^2 seen so far, kept as the
exact fraction (s0*w1 - s1*w0)^2 / (w0*w1).  Candidates with an empty class
are skipped, and only a strictly larger variance replaces the stored best,
so ties resolve to the lowest threshold — the scan order and tie-break of
OpenCV's getThreshVal_Otsu_8u. -/
def otsuStep (n s : ℕ) (acc : ℕ × ℕ × ℕ × ℤ × ℕ) (hi : ℕ × ℕ) :
    ℕ × ℕ × ℕ × ℤ × ℕ :=
  let w0 := acc.1 + hi.2
  let s0 := acc.2.1 + hi.1 * hi.2
  let w1 := n - w0
  let s1 := s - s0
  let best := acc.2.2
  if w0 = 0 ∨ w1 = 0 then (w0, s0, best)
  else
    let num : ℤ := ((s0 * w1 : ℤ) - (s1 * w0 : ℤ)) ^ 2
    let den : ℕ := w0 * w1
    if best.2.2 * num > best.2.1 * den then (w0, s0, hi.1, num, den)
    else (w0, s0, best)

/-- The Otsu threshold: scan t = 0..255 and keep the first maximizer of the
between-class variance (cv::threshold with THRESH_OTSU on CV_8UC1, compared
exactly instead of in double precision). -/
def otsuValue (img : Img) : ℕ :=
  let n := img.w * img.h
  let s := ((List.range 256).map (fun i => i * histCount img i)).sum
  (((List.range 256).map (fun i => (i, histCount img i))).foldl
    (otsuStep n s) (0, 0, 0, 0, 1)).2.2.1

/-- Segmentation::otsuThreshold (segmentation.cpp lines 101-108):
cv::threshold(processed, result, 0, 255, THRESH_BINARY | THRESH_OTSU). -/
def otsuThreshold (img : Img) : Img :=
  ⟨img.w, img.h, fun pt =>
    if (img.pix pt : ℤ) > (otsuValue img : ℤ) then 255 else 0⟩

/-- Coordinate clamping of BORDER_REPLICATE sampling. -/
def clampCoord (n : ℕ) (x : ℤ) : ℤ := max 0 (min ((n : ℤ) - 1) x)

/-- The Gaussian-weighted local mean of cv::adaptiveThreshold with
ADAPTIVE_THRESH_GAUSSIAN_C: a separable GaussianBlur of aperture blockSize
with BORDER_REPLICATE, written to an 8-bit mean image (hence the final
rounding saturate_cast).  The 1-D kernel weights come from OpenCV's
getGaussianKernel, floating-point library code outside this repository, so
they are a parameter gk. -/
def gaussMeanByte (gk : ℕ → List ℚ) (img : Img) (blockSize : ℕ) (pt : Pt) :
    ℕ :=
  let ker := (gk blockSize).enum
  let r : ℤ := blockSize / 2
  satCastQ
    ((ker.map (fun iy =>
      (ker.map (fun ix =>
        iy.2 * ix.2 *
          (img.pix (clampCoord img.w (pt.1 + ix.1 - r),
                    clampCoord img.h (pt.2 + iy.1 - r)) : ℚ))).sum)).sum)

/-- Segmentation::adaptiveThreshold (segmentation.cpp lines 110-122): the
method flag passed to cv::adaptiveThreshold is always
ADAPTIVE_THRESH_GAUSSIAN_C, so the local statistic is the Gaussian-weighted
mean; dst = src > mean - ceil(C) ? maxval : 0 for THRESH_BINARY (cvCeil
becomes cvFloor and the arms swap for THRESH_BINARY_INV). -/
def adaptiveThresholdOp (gk : ℕ → List ℚ) (img : Img) (p : AdaptiveParams) :
    Img :=
  ⟨img.w, img.h, fun pt =>
    let m := gaussMeanByte gk img p.blockSize pt
    if p.invertColors then
      (if (img.pix pt : ℤ) > (m : ℤ) - floorQ p.C then 0 else satCastQ p.maxValue)
    else
      (if (img.pix pt : ℤ) > (m : ℤ) - ceilQ p.C then satCastQ p.maxValue else 0)⟩

/-! ### Morphology (MaskPostProcessor, segmentation.cpp lines 36-50) -/

/-- cv::getStructuringElement(MORPH_ELLIPSE, Size(3, 3)): the 3x3 cross. -/
def kEllipse3 : List Pt := [(0, -1), (-1, 0), (0, 0), (1, 0), (0, 1)]

/-- The default 3x3 rectangular structuring element of cv::dilate with an
empty kernel argument (cv::Mat()). -/
def kRect3 : List Pt :=
  [(-1, -1), (0, -1), (1, -1), (-1, 0), (0, 0), (1, 0), (-1, 1), (0, 1), (1, 1)]

/-- The in-bounds sampling points p + k, k ranging over the structuring
element.  Out-of-image samples are dropped: with the default morphology
border value (+inf for erosion, -inf for dilation) they never influence the
min / max. -/
def kernelPts (w h : ℕ) (K : List Pt) (p : Pt) : List Pt :=
  (K.map (fun k => (p.1 + k.1, p.2 + k.2))).filter (fun q => decide (inB w h q))

/-- Minimum of a list of bytes, with the erosion border identity 255. -/
def listMin (l : List ℕ) : ℕ := l.foldr Nat.min 255

/-- Maximum of a list of bytes, with the dilation border identity 0. -/
def listMax (l : List ℕ) : ℕ := l.foldr Nat.max 0

/-- Grayscale erosion by structuring element K on a w x h image. -/
def erodeF (w h : ℕ) (K : List Pt) (f : Pt → ℕ) : Pt → ℕ := fun p =>
  if inB w h p then listMin ((kernelPts w h K p).map f) else 0

/-- Grayscale dilation by structuring element K on a w x h image. -/
def dilateF (w h : ℕ) (K : List Pt) (f : Pt → ℕ) : Pt → ℕ := fun p =>
  if inB w h p then listMax ((kernelPts w h K p).map f) else 0

/-- cv::morphologyEx MORPH_OPEN: erosion then dilation. -/
def openF (w h : ℕ) (K : List Pt) (f : Pt → ℕ) : Pt → ℕ :=
  dilateF w h K (erodeF w h K f)

/-- cv::morphologyEx MORPH_CLOSE: dilation then erosion. -/
def closeF (w h : ℕ) (K : List Pt) (f : Pt → ℕ) : Pt → ℕ :=
  erodeF w h K (dilateF w h K f)

/-- Segmentation::postProcessMask (segmentation.cpp lines 36-50): clone,
then MORPH_OPEN followed by MORPH_CLOSE with the 3x3 elliptical kernel. -/
def postProcessMask (m : Img) : Img :=
  ⟨m.w, m.h, closeF m.w m.h kEllipse3 (openF m.w m.h kEllipse3 m.pix)⟩

/-! ### RegionGrowingEngine (segmentation.cpp lines 124-172) -/

/-- Segmentation::RegionGrowingParams (segmentation.hpp lines 39-43).  The
connectivity field is declared "4 or 8 connectivity" in the header; the
implementation never reads it. -/
structure RegionGrowingParams where
  seeds : List Pt := []
  threshold : ℚ := 20
  connectivity : ℕ := 8

/-- The neighbor offsets scanned by the nested loops of
Segmentation::regionGrowing (lines 150-154): (i, j) runs over
{-1,0,1} x {-1,0,1} minus (0,0) and the neighbor is
(current.x + j, current.y + i) — all 8 neighbors, whatever the
connectivity parameter says. -/
def nbrOffsets : List Pt :=
  [(-1, -1), (0, -1), (1, -1), (-1, 0), (1, 0), (-1, 1), (0, 1), (1, 1)]

/-- The admission test of the inner loop (lines 156-165): a neighbor is
pushed iff it passes the explicit bounds guard, is not yet 255 in the mask
(which already contains the freshly claimed current pixel), and its
intensity differs from the intensity of the current pixel by at most the
tolerance; std::abs acts on the int difference of the two uchars and the
comparison is against the double threshold. -/
def pushList (img : Img) (tol : ℚ) (mask : Finset Pt) (current : Pt) :
    List Pt :=
  nbrOffsets.filterMap (fun o =>
    let nb : Pt := (current.1 + o.1, current.2 + o.2)
    if inB img.w img.h nb ∧ nb ∉ mask ∧
        ((|(img.pix nb : ℤ) - (img.pix current : ℤ)| : ℤ) : ℚ) ≤ tol then
      some nb
    else none)

/-- The while loop of Segmentation::regionGrowing (lines 140-168).  The
frontier is the std::vector used as a stack (push_back / back / pop_back);
the list head is the vector's back, so the pushes of one scan are appended
in reverse.  Every mat.at access is modelled as a checked access (cv::Mat::at
bounds-asserts): popping an out-of-bounds pixel faults instead of reading
outside the buffers.  The fuel argument only forces termination; with the
fuel supplied by regionGrowing it is never exhausted. -/
def growLoop (img : Img) (tol : ℚ) :
    ℕ → Finset Pt → List Pt → Except String (Finset Pt)
  | 0, _, _ => .error "fuel exhausted"
  | _ + 1, mask, [] => .ok mask
  | fuel + 1, mask, current :: rest =>
    if inB img.w img.h current then
      if current ∈ mask then growLoop img tol fuel mask rest
      else
        growLoop img tol fuel (insert current mask)
          ((pushList img tol (insert current mask) current).reverse ++ rest)
    else .error "out of bounds access"

/-- Fuel budget that provably outlasts the loop: each iteration either
claims a new in-bounds pixel (at most |domain| times, pushing at most 8
neighbors each) or shrinks the stack. -/
def growFuel (img : Img) : ℕ := 2 + 9 * (domain img.w img.h).card

/-- The per-seed outer loop (lines 134-169): skip a seed already claimed
(a checked mask read), otherwise run the stack loop from that seed. -/
def growSeeds (img : Img) (tol : ℚ) :
    Finset Pt → List Pt → Except String (Finset Pt)
  | mask, [] => .ok mask
  | mask, s :: ss =>
    if inB img.w img.h s then
      if s ∈ mask then growSeeds img tol mask ss
      else
        match growLoop img tol (growFuel img) mask [s] with
        | .error e => .error e
        | .ok m => growSeeds img tol m ss
    else .error "out of bounds access"

/-- Segmentation::regionGrowing (lines 124-172), returning the set of
pixels the mask marks 255.  Empty seed list throws (line 129). -/
def regionGrowing (img : Img) (p : RegionGrowingParams) :
    Except String (Finset Pt) :=
  if p.seeds = [] then .error "No seeds provided for region growing"
  else growSeeds img p.threshold ∅ p.seeds

/-- The mask image built by region growing: 255 on the grown set, 0
elsewhere (mask starts as cv::Mat::zeros and is only ever set to 255). -/
def maskImg (img : Img) (s : Finset Pt) : Img :=
  ⟨img.w, img.h, fun p => if p ∈ s then 255 else 0⟩

/-- Chain reachability underlying region growing: a pixel is reachable if
it is a seed, or an in-bounds 8-neighbor of a reachable pixel whose
intensity differs by at most the tolerance. -/
inductive Reach (img : Img) (tol : ℚ) (seeds : List Pt) : Pt → Prop
  | seed {s : Pt} : s ∈ seeds → Reach img tol seeds s
  | step {p q : Pt} : Reach img tol seeds p →
      (∃ o ∈ nbrOffsets, q = (p.1 + o.1, p.2 + o.2)) →
      inB img.w img.h q →
      ((|(img.pix q : ℤ) - (img.pix p : ℤ)| : ℤ) : ℚ) ≤ tol →
      Reach img tol seeds q

/-! ### WatershedEngine (chest_x_ray_analyzer.cpp lines 434-509) -/

/-- Segmentation::WatershedParams (segmentation.hpp lines 45-49). -/
structure WatershedParams where
  useDistanceTransform : Bool := true
  foregroundSeeds : List Pt := []
  backgroundSeeds : List Pt := []

/-- The auto-mode marker matrix (lines 439-459).  ndist is the normalized
distance field produced by cv::distanceTransform followed by
cv::normalize(., ., 0, 1.0, NORM_MINMAX), both library primitives, so it is
a parameter.  cv::threshold(dist, foreground, 0.3, 1.0, THRESH_BINARY)
writes 1.0 where ndist > 0.3; the Otsu foreground dilated three times by
the default 3x3 rectangle and passed through
cv::threshold(., ., 1, 128, THRESH_BINARY_INV) writes 128 where the dilated
value is <= 1; the marker matrix is background + foreground * 255. -/
def autoMarkers (img : Img) (ndist : Pt → ℚ) : Pt → ℤ := fun p =>
  let binary := (otsuThreshold img).pix
  let dil3 := dilateF img.w img.h kRect3
    (dilateF img.w img.h kRect3 (dilateF img.w img.h kRect3 binary))
  let fg : ℕ := if ndist p > mkRat 3 10 then 1 else 0
  let bg : ℕ := if dil3 p > 1 then 0 else 128
  (bg : ℤ) + 255 * (fg : ℤ)

/-- The manual-mode marker matrix (lines 461-480): a filled radius-2
cv::circle of label 1 around every in-bounds background seed, then label 2
around every in-bounds foreground seed (drawn second, so foreground wins on
overlap).  The circle rasterization is library code, so the pixel disk of a
center is a parameter. -/
def manualMarkers (disk : Pt → Finset Pt) (wp : WatershedParams)
    (w h : ℕ) : Pt → ℤ := fun p =>
  if ¬ inB w h p then 0
  else if wp.foregroundSeeds.any (fun s => decide (inB w h s) && decide (p ∈ disk s)) then 2
  else if wp.backgroundSeeds.any (fun s => decide (inB w h s) && decide (p ∈ disk s)) then 1
  else 0

/-- Segmentation::watershed (lines 434-509).  The cv::watershed flood is a
library primitive and enters as the parameter flood; the repository code
builds the marker matrix, runs the flood, keeps the pixels whose final
label equals 2 as 255 (line 498), and applies a MORPH_CLOSE with the 3x3
elliptical kernel (lines 501-502). -/
def watershedOp (ndist : Pt → ℚ) (disk : Pt → Finset Pt)
    (flood : Img → (Pt → ℤ) → Pt → ℤ) (img : Img) (wp : WatershedParams) :
    Except String Img :=
  if img.w = 0 ∨ img.h = 0 then
    .error "Watershed segmentation failed: Input image is empty"
  else
    match
      (if wp.useDistanceTransform then some (autoMarkers img ndist)
       else if wp.foregroundSeeds ≠ [] ∨ wp.backgroundSeeds ≠ [] then
         some (manualMarkers disk wp img.w img.h)
       else none) with
    | none =>
      .error "Watershed segmentation failed: No valid markers or seeds provided for watershed"
    | some markers =>
      let labels := flood img markers
      let raw : Img := ⟨img.w, img.h, fun p => if labels p = 2 then 255 else 0⟩
      .ok ⟨img.w, img.h, closeF img.w img.h kEllipse3 raw.pix⟩

/-! ### Dispatch (Segmentation::segment, segmentation.cpp lines 52-89) -/

/-- Segmentation::Method (segmentation.hpp lines 16-24). -/
inductive Method
  | THRESHOLD
  | OTSU
  | ADAPTIVE_MEAN
  | ADAPTIVE_GAUSSIAN
  | REGION_GROWING
  | WATERSHED
  | GRAPH_CUT
deriving DecidableEq

/-- The parameter payload behind the void* argument of segment, one variant
per parameter struct.  Passing a variant that does not match the method is
undefined behaviour in the C++ (a bad static_cast); the model then falls
back to the default-constructed parameters, as it does for a null
pointer. -/
inductive SegParams
  | thr (p : ThresholdParams)
  | ada (p : AdaptiveParams)
  | rgp (p : RegionGrowingParams)
  | wsp (p : WatershedParams)

def paramsThr : Option SegParams → ThresholdParams
  | some (.thr p) => p
  | _ => {}

def paramsAda : Option SegParams → AdaptiveParams
  | some (.ada p) => p
  | _ => {}

def paramsRg : Option SegParams → RegionGrowingParams
  | some (.rgp p) => p
  | _ => {}

/-- Segmentation::segment (segmentation.cpp lines 52-89): validateInput
throws on an empty image; the switch dispatches to the engines, except that
the WATERSHED and GRAPH_CUT case bodies are commented out, so result stays
the default-constructed empty cv::Mat and postProcessMask receives it; any
engine exception is rethrown with the "Segmentation failed: " prefix. -/
def segment (gk : ℕ → List ℚ) (img : Img) (m : Method)
    (ps : Option SegParams) : Except String Img :=
  if img.w = 0 ∨ img.h = 0 then .error "Segmentation failed: Input image is empty"
  else
    match m with
    | .THRESHOLD => .ok (postProcessMask (thresholdOp img (paramsThr ps)))
    | .OTSU => .ok (postProcessMask (otsuThreshold img))
    | .ADAPTIVE_MEAN => .ok (postProcessMask (adaptiveThresholdOp gk img (paramsAda ps)))
    | .ADAPTIVE_GAUSSIAN => .ok (postProcessMask (adaptiveThresholdOp gk img (paramsAda ps)))
    | .REGION_GROWING =>
      match regionGrowing img (paramsRg ps) with
      | .error e => .error ("Segmentation failed: " ++ e)
      | .ok s => .ok (postProcessMask (maskImg img s))
    | .WATERSHED => .ok (postProcessMask emptyImg)
    | .GRAPH_CUT => .ok (postProcessMask emptyImg)

/-! ### Overlay renderer (Segmentation::drawSegmentation, lines 183-197) -/

/-- A 3-channel 8-bit image in BGR channel order. -/
structure ColorImg where
  w : ℕ
  h : ℕ
  pix : Pt → ℕ × ℕ × ℕ

/-- One channel of cv::addWeighted(overlay, alpha, base, 1 - alpha, 0):
saturate_cast<uchar> of o * alpha + b * (1 - alpha), computed exactly on
the common denominator of alpha. -/
def blendByte (o b : ℕ) (alpha : ℚ) : ℕ :=
  byteClampRound ((o : ℤ) * alpha.num + (b : ℤ) * ((alpha.den : ℤ) - alpha.num))
    alpha.den

/-- Segmentation::drawSegmentation (segmentation.cpp lines 183-197) for a
single-channel input: convert to BGR, paint the mask's nonzero pixels red
(setTo(Scalar(0,0,255), mask)) on a clone, and alpha-blend clone and
original with cv::addWeighted.  The function performs no validation of
alpha whatsoever. -/
def drawSegmentation (img : Img) (mask : Img) (alpha : ℚ) : ColorImg :=
  ⟨img.w, img.h, fun p =>
    let b : ℕ := img.pix p
    let ov : ℕ × ℕ × ℕ := if mask.pix p ≠ 0 then (0, 0, 255) else (b, b, b)
    (blendByte ov.1 b alpha, blendByte ov.2.1 b alpha, blendByte ov.2.2 b alpha)⟩

/-! ### Auxiliary predicates and concrete test data -/

/-- A mask is two-valued with foreground value v on its domain. -/
def twoValuedOn (m : Img) (v : ℕ) : Prop :=
  ∀ p ∈ domain m.w m.h, m.pix p = 0 ∨ m.pix p = v

/-- Pixel values fit in a byte on the domain (the CV_8UC1 invariant). -/
def byteOn (w h : ℕ) (f : Pt → ℕ) : Prop :=
  ∀ p ∈ domain w h, f p ≤ 255

instance {α : Type} [DecidableEq α] : DecidableEq (Except String α) :=
  fun a b =>
    match a, b with
    | .ok x, .ok y => decidable_of_iff (x = y) (by simp)
    | .error e, .error f => decidable_of_iff (e = f) (by simp)
    | .ok _, .error _ => isFalse (by simp)
    | .error _, .ok _ => isFalse (by simp)

/-- A degenerate Gaussian-kernel table (any value works for the claims that
quantify over the library kernel; this one keeps witnesses computable). -/
def gk0 : ℕ → List ℚ := fun _ => []

/-- A 1 x 1 test image with the single intensity 200. -/
def imgA : Img := ⟨1, 1, fun _ => 200⟩

/-- The 2 x 2 checkerboard: intensity 10 on the main diagonal, 200 off it.
The two diagonal pixels are within tolerance 20 of each other; the two
off-diagonal pixels are not within tolerance of anything. -/
def imgB : Img :=
  ⟨2, 2, fun p => if p = (0, 0) ∨ p = (1, 1) then 10 else 200⟩

/-- The 2 x 2 ramp used for the tolerance-monotonicity witness:
10 and 14 in the first row, 30 and 12 in the second. -/
def imgC : Img :=
  ⟨2, 2, fun p =>
    if p = (0, 0) then 10 else if p = (1, 0) then 14
    else if p = (0, 1) then 30 else 12⟩

/-- Region-growing parameters: seed (0,0), tolerance 20, connectivity 4. -/
def rgB4 : RegionGrowingParams := ⟨[(0, 0)], 20, 4⟩

/-- Region-growing parameters: seed (0,0), tolerance 5, connectivity 8. -/
def rgC5 : RegionGrowingParams := ⟨[(0, 0)], 5, 8⟩

/-- Region-growing parameters: seed (0,0), tolerance 20, connectivity 8. -/
def rgC20 : RegionGrowingParams := ⟨[(0, 0)], 20, 8⟩

/-- Threshold parameters with the non-default maxValue 100. -/
def thrP100 : ThresholdParams := ⟨128, 100, false⟩

/-- A 1 x 1 gray test image of intensity 100 for the overlay renderer. -/
def imgG : Img := ⟨1, 1, fun _ => 100⟩

/-- All-foreground 1 x 1 mask. -/
def maskF : Img := ⟨1, 1, fun _ => 255⟩

/-- Pointwise order of pixel functions on the w x h domain. -/
def leD (w h : ℕ) (f g : Pt → ℕ) : Prop :=
  ∀ p : Pt, inB w h p → f p ≤ g p

/-- Pointwise equality of pixel functions on the w x h domain. -/
def eqD (w h : ℕ) (f g : Pt → ℕ) : Prop :=
  ∀ p : Pt, inB w h p → f p = g p

/-- Byte bound stated pointwise over inB (interchangeable with byteOn). -/
def bOn (w h : ℕ) (f : Pt → ℕ) : Prop :=
  ∀ p : Pt, inB w h p → f p ≤ 255

/-- A symmetric structuring element (closed under negation). -/
def symmK (K : List Pt) : Prop :=
  ∀ k ∈ K, ((-k.1, -k.2) : Pt) ∈ K

/-- Normalized-distance stand-in for witnesses (manual mode never reads it). -/
def ndist0 : Pt → ℚ := fun _ => 0

/-- Degenerate circle rasterizer for witnesses. -/
def disk0 : Pt → Finset Pt := fun _ => ∅

/-- Identity flood stand-in for witnesses. -/
def flood0 : Img → (Pt → ℤ) → Pt → ℤ := fun _ mk => mk

/-- Manual-mode watershed parameters with one foreground seed. -/
def wsManual : WatershedParams := ⟨false, [(0, 0)], []⟩

/-!
## Theorems
-/

/-- C1: Segmentation::segment with Method::WATERSHED does not reach the
watershed engine: the case body is commented out (segmentation.cpp lines
74-76), so for the non-empty 1 x 1 input the function returns the
post-processed default-constructed empty matrix — a 0 x 0 mask, not the
engine's cleaned mask of the input's dimensions. -/
theorem C1_segment_watershed_returns_empty :
    ∃ m, segment gk0 imgA .WATERSHED none = .ok m ∧ m.w = 0 ∧ m.h = 0 ∧
      imgA.w = 1 ∧ imgA.h = 1 :=
  ⟨postProcessMask emptyImg, rfl, rfl, rfl, rfl, rfl⟩

/-- C2: in watershed auto mode the marker matrix never contains the labels
the specification names: for every image and every normalized distance
field the combined marker value at every pixel lies in {0, 128, 255} — in
particular it is never 1 (claimed background label) and never 2 (claimed
foreground label), so the final mask test markers == 2 of line 498 can
never see a seeded foreground label. -/
theorem C2_auto_markers_never_1_or_2 (img : Img) (ndist : Pt → ℚ) (p : Pt) :
    autoMarkers img ndist p ≠ 1 ∧ autoMarkers img ndist p ≠ 2 := by
  unfold autoMarkers
  dsimp only
  split_ifs <;> simp

/-- C3: the connectivity parameter is ignored: with connectivity = 4, seed
(0,0) and tolerance 20 on the 2 x 2 checkerboard, the grown region contains
(1,1), a pixel whose only admissible adjacency to the region is diagonal
(both axis neighbors of the region differ by 190 > 20 and are excluded). -/
theorem C3_connectivity_4_admits_diagonal :
    rgB4.connectivity = 4 ∧
      ∃ m, regionGrowing imgB rgB4 = .ok m ∧ ((1, 1) : Pt) ∈ m ∧
        ((1, 0) : Pt) ∉ m ∧ ((0, 1) : Pt) ∉ m :=
  ⟨rfl, {((0, 0) : Pt), (1, 1)}, by decide, by decide, by decide, by decide⟩

/-- C4: ADAPTIVE_MEAN and ADAPTIVE_GAUSSIAN are routed to the same
adaptiveThreshold call (segmentation.cpp lines 65-69), which always passes
ADAPTIVE_THRESH_GAUSSIAN_C (line 116): the two method variants produce
identical masks for every image, every parameter payload and every library
Gaussian kernel — they never binarize against distinct local statistics. -/
theorem C4_adaptive_mean_equals_gaussian (gk : ℕ → List ℚ) (img : Img)
    (ps : Option SegParams) :
    segment gk img .ADAPTIVE_MEAN ps = segment gk img .ADAPTIVE_GAUSSIAN ps :=
  rfl

/-- C5 counterexample: with the non-default maxValue 100 the returned mask
is not {0,255}-valued: thresholding the 1 x 1 image of intensity 200 at 128
with maxValue 100 and post-processing yields the pixel value 100. -/
theorem C5_counterexample_maxValue_100 :
    (postProcessMask (thresholdOp imgA thrP100)).pix (0, 0) = 100 ∧
      (postProcessMask (thresholdOp imgA thrP100)).pix (0, 0) ≠ 0 ∧
      (postProcessMask (thresholdOp imgA thrP100)).pix (0, 0) ≠ 255 ∧
      (postProcessMask (thresholdOp imgA thrP100)).w = imgA.w ∧
      (postProcessMask (thresholdOp imgA thrP100)).h = imgA.h := by
  refine ⟨by decide, by decide, by decide, rfl, rfl⟩

/-- C6 counterexample: drawSegmentation performs no alpha validation: at
alpha = -1 (outside [0,1]) it returns a well-defined blended image, and on
the 1 x 1 gray-100 input with an all-foreground mask the blended pixel is
(200, 200, 0) — a value no in-range alpha produces, so the blend genuinely
used the out-of-range weight instead of failing. -/
theorem C6_counterexample_alpha_minus_one :
    ¬ (0 ≤ (-1 : ℚ) ∧ (-1 : ℚ) ≤ 1) ∧
      (drawSegmentation imgG maskF (-1)).pix (0, 0) = (200, 200, 0) := by
  refine ⟨by decide, by decide⟩

/-- C6 amended: drawSegmentation accepts every alpha, in or out of [0,1]:
it always returns the image of the input's dimensions whose every pixel is
the saturating addWeighted blend of the red-painted overlay and the
BGR-converted input with weights alpha and 1 - alpha. -/
theorem C6_amended_no_alpha_validation (img mask : Img) (alpha : ℚ) :
    (drawSegmentation img mask alpha).w = img.w ∧
      (drawSegmentation img mask alpha).h = img.h ∧
      ∀ p, (drawSegmentation img mask alpha).pix p =
        if mask.pix p ≠ 0 then
          (blendByte 0 (img.pix p) alpha, blendByte 0 (img.pix p) alpha,
            blendByte 255 (img.pix p) alpha)
        else
          (blendByte (img.pix p) (img.pix p) alpha,
            blendByte (img.pix p) (img.pix p) alpha,
            blendByte (img.pix p) (img.pix p) alpha) := by
  refine ⟨rfl, rfl, fun p => ?_⟩
  unfold drawSegmentation
  dsimp only
  by_cases h : mask.pix p ≠ 0 <;> simp [h]

/-! ### Morphology lemmas -/

theorem mem_domain {w h : ℕ} {p : Pt} : p ∈ domain w h ↔ inB w h p := by
  unfold domain inB
  simp only [Finset.mem_image, Finset.mem_product, Finset.mem_range, Prod.exists]
  constructor
  · rintro ⟨a, b, ⟨ha, hb⟩, rfl⟩
    refine ⟨?_, ?_, ?_, ?_⟩ <;> simp <;> omega
  · rintro ⟨h1, h2, h3, h4⟩
    refine ⟨p.1.toNat, p.2.toNat, ⟨by omega, by omega⟩, ?_⟩
    rw [Prod.ext_iff]
    constructor <;> simp <;> omega

theorem listMin_le_255 (l : List ℕ) : listMin l ≤ 255 := by
  induction l with
  | nil => simp [listMin]
  | cons a t ih => simpa [listMin] using Or.inr ih

theorem listMin_le_of_mem {l : List ℕ} {a : ℕ} (h : a ∈ l) : listMin l ≤ a := by
  induction l with
  | nil => cases h
  | cons b t ih =>
    rcases List.mem_cons.mp h with rfl | h
    · simp [listMin]
    · simpa [listMin] using Or.inr (ih h)

theorem le_listMin {l : List ℕ} {v : ℕ} (h255 : v ≤ 255)
    (h : ∀ a ∈ l, v ≤ a) : v ≤ listMin l := by
  induction l with
  | nil => simpa [listMin] using h255
  | cons b t ih =>
    have hb := h b (List.mem_cons_self b t)
    have ht := ih (fun a ha => h a (List.mem_cons_of_mem b ha))
    simp [listMin] at ht ⊢
    exact ⟨hb, ht⟩

theorem le_listMax_of_mem {l : List ℕ} {a : ℕ} (h : a ∈ l) : a ≤ listMax l := by
  induction l with
  | nil => cases h
  | cons b t ih =>
    rcases List.mem_cons.mp h with rfl | h
    · simp [listMax]
    · simpa [listMax] using Or.inr (ih h)

theorem listMax_le {l : List ℕ} {v : ℕ} (h : ∀ a ∈ l, a ≤ v) : listMax l ≤ v := by
  induction l with
  | nil => simp [listMax]
  | cons b t ih =>
    have hb := h b (List.mem_cons_self b t)
    have ht := ih (fun a ha => h a (List.mem_cons_of_mem b ha))
    simp [listMax]
    exact ⟨hb, ht⟩

theorem listMin_map_mono {L : List Pt} {f g : Pt → ℕ}
    (h : ∀ q ∈ L, f q ≤ g q) : listMin (L.map f) ≤ listMin (L.map g) := by
  induction L with
  | nil => simp
  | cons b t ih =>
    have hb := h b (List.mem_cons_self b t)
    have ht := ih (fun q hq => h q (List.mem_cons_of_mem b hq))
    simp only [List.map_cons, listMin, List.foldr_cons]
    exact min_le_min hb ht

theorem listMax_map_mono {L : List Pt} {f g : Pt → ℕ}
    (h : ∀ q ∈ L, f q ≤ g q) : listMax (L.map f) ≤ listMax (L.map g) := by
  induction L with
  | nil => simp
  | cons b t ih =>
    have hb := h b (List.mem_cons_self b t)
    have ht := ih (fun q hq => h q (List.mem_cons_of_mem b hq))
    simp only [List.map_cons, listMax, List.foldr_cons]
    exact max_le_max hb ht

theorem listMin_two : ∀ (l : List ℕ) (v : ℕ), l ≠ [] → v ≤ 255 →
    (∀ a ∈ l, a = 0 ∨ a = v) → listMin l = 0 ∨ listMin l = v
  | [], _, hne, _, _ => absurd rfl hne
  | [b], v, _, h255, h => by
    rcases h b (by simp) with rfl | rfl
    · left; simp [listMin]
    · right; simpa [listMin] using Nat.min_eq_left h255
  | b :: c :: t, v, _, h255, h => by
    have ht := listMin_two (c :: t) v (by simp) h255
      (fun a ha => h a (List.mem_cons_of_mem b ha))
    have hb := h b (by simp)
    have he : listMin (b :: c :: t) = Nat.min b (listMin (c :: t)) := rfl
    rw [he]
    rcases hb with rfl | rfl <;> rcases ht with h2 | h2 <;> rw [h2] <;> simp

theorem listMax_two : ∀ (l : List ℕ) (v : ℕ),
    (∀ a ∈ l, a = 0 ∨ a = v) → listMax l = 0 ∨ listMax l = v
  | [], _, _ => Or.inl rfl
  | b :: t, v, h => by
    have ht := listMax_two t v (fun a ha => h a (List.mem_cons_of_mem b ha))
    have hb := h b (by simp)
    have he : listMax (b :: t) = Nat.max b (listMax t) := rfl
    rw [he]
    rcases hb with rfl | rfl <;> rcases ht with h2 | h2 <;> rw [h2] <;> simp

theorem mem_kernelPts {w h : ℕ} {K : List Pt} {p q : Pt} :
    q ∈ kernelPts w h K p ↔
      (∃ k ∈ K, q = (p.1 + k.1, p.2 + k.2)) ∧ inB w h q := by
  unfold kernelPts
  simp only [List.mem_filter, List.mem_map, decide_eq_true_eq]
  constructor
  · rintro ⟨⟨k, hk, rfl⟩, hb⟩
    exact ⟨⟨k, hk, rfl⟩, hb⟩
  · rintro ⟨⟨k, hk, rfl⟩, hb⟩
    exact ⟨⟨k, hk, rfl⟩, hb⟩

theorem self_mem_kernelPts {w h : ℕ} {K : List Pt} {p : Pt}
    (h0 : ((0, 0) : Pt) ∈ K) (hp : inB w h p) : p ∈ kernelPts w h K p := by
  refine mem_kernelPts.mpr ⟨⟨(0, 0), h0, ?_⟩, hp⟩
  simp

theorem erodeF_bOn (w h : ℕ) (K : List Pt) (f : Pt → ℕ) :
    bOn w h (erodeF w h K f) := by
  intro p hp
  simp only [erodeF, if_pos hp]
  exact listMin_le_255 _

theorem dilateF_bOn {w h : ℕ} {K : List Pt} {f : Pt → ℕ} (hf : bOn w h f) :
    bOn w h (dilateF w h K f) := by
  intro p hp
  simp only [dilateF, if_pos hp]
  refine listMax_le ?_
  rintro a ha
  rcases List.mem_map.mp ha with ⟨q, hq, rfl⟩
  exact hf q (mem_kernelPts.mp hq).2

theorem erodeF_mono {w h : ℕ} {K : List Pt} {f g : Pt → ℕ}
    (hfg : leD w h f g) : leD w h (erodeF w h K f) (erodeF w h K g) := by
  intro p hp
  simp only [erodeF, if_pos hp]
  exact listMin_map_mono (fun q hq => hfg q (mem_kernelPts.mp hq).2)

theorem dilateF_mono {w h : ℕ} {K : List Pt} {f g : Pt → ℕ}
    (hfg : leD w h f g) : leD w h (dilateF w h K f) (dilateF w h K g) := by
  intro p hp
  simp only [dilateF, if_pos hp]
  exact listMax_map_mono (fun q hq => hfg q (mem_kernelPts.mp hq).2)

theorem erodeF_congr {w h : ℕ} {K : List Pt} {f g : Pt → ℕ}
    (hfg : eqD w h f g) : eqD w h (erodeF w h K f) (erodeF w h K g) := by
  intro p hp
  have h1 := erodeF_mono (K := K) (fun q hq => (hfg q hq).le) p hp
  have h2 := erodeF_mono (K := K) (fun q hq => (hfg q hq).ge) p hp
  omega

theorem dilateF_congr {w h : ℕ} {K : List Pt} {f g : Pt → ℕ}
    (hfg : eqD w h f g) : eqD w h (dilateF w h K f) (dilateF w h K g) := by
  intro p hp
  have h1 := dilateF_mono (K := K) (fun q hq => (hfg q hq).le) p hp
  have h2 := dilateF_mono (K := K) (fun q hq => (hfg q hq).ge) p hp
  omega

/-- The morphological adjunction: for a symmetric structuring element,
dilation is left adjoint to erosion in the pointwise order on the image
domain. -/
theorem dilate_le_iff_le_erode {w h : ℕ} {K : List Pt} {f g : Pt → ℕ}
    (hsym : symmK K) (hf : bOn w h f) :
    leD w h (dilateF w h K f) g ↔ leD w h f (erodeF w h K g) := by
  constructor
  · intro H q hq
    simp only [erodeF, if_pos hq]
    refine le_listMin (hf q hq) ?_
    rintro a ha
    rcases List.mem_map.mp ha with ⟨r, hr, rfl⟩
    rcases mem_kernelPts.mp hr with ⟨⟨k, hk, rfl⟩, hrb⟩
    refine le_trans ?_ (H _ hrb)
    simp only [dilateF, if_pos hrb]
    refine le_listMax_of_mem (List.mem_map.mpr ⟨q, ?_, rfl⟩)
    refine mem_kernelPts.mpr ⟨⟨(-k.1, -k.2), hsym k hk, ?_⟩, hq⟩
    simp only [Prod.ext_iff]
    constructor <;> ring
  · intro H p hp
    simp only [dilateF, if_pos hp]
    refine listMax_le ?_
    rintro a ha
    rcases List.mem_map.mp ha with ⟨r, hr, rfl⟩
    rcases mem_kernelPts.mp hr with ⟨⟨k, hk, rfl⟩, hrb⟩
    refine le_trans (H _ hrb) ?_
    simp only [erodeF, if_pos hrb]
    refine listMin_le_of_mem (List.mem_map.mpr ⟨p, ?_, rfl⟩)
    refine mem_kernelPts.mpr ⟨⟨(-k.1, -k.2), hsym k hk, ?_⟩, hp⟩
    simp only [Prod.ext_iff]
    constructor <;> ring

theorem leD_refl (w h : ℕ) (f : Pt → ℕ) : leD w h f f := fun _ _ => le_rfl

theorem openF_le {w h : ℕ} {K : List Pt} {f : Pt → ℕ} (hsym : symmK K) :
    leD w h (openF w h K f) f :=
  (dilate_le_iff_le_erode hsym (erodeF_bOn w h K f)).mpr
    (leD_refl w h (erodeF w h K f))

theorem le_closeF {w h : ℕ} {K : List Pt} {f : Pt → ℕ} (hsym : symmK K)
    (hf : bOn w h f) : leD w h f (closeF w h K f) :=
  (dilate_le_iff_le_erode hsym hf).mp (leD_refl w h (dilateF w h K f))

theorem eps_delta_eps {w h : ℕ} {K : List Pt} {f : Pt → ℕ} (hsym : symmK K) :
    eqD w h (erodeF w h K (dilateF w h K (erodeF w h K f))) (erodeF w h K f) := by
  intro p hp
  have h1 : leD w h (erodeF w h K (dilateF w h K (erodeF w h K f)))
      (erodeF w h K f) := erodeF_mono (openF_le hsym)
  have h2 : leD w h (erodeF w h K f)
      (erodeF w h K (dilateF w h K (erodeF w h K f))) :=
    (dilate_le_iff_le_erode hsym (erodeF_bOn w h K f)).mp
      (leD_refl w h (dilateF w h K (erodeF w h K f)))
  exact le_antisymm (h1 p hp) (h2 p hp)

theorem delta_eps_delta {w h : ℕ} {K : List Pt} {f : Pt → ℕ} (hsym : symmK K)
    (hf : bOn w h f) :
    eqD w h (dilateF w h K (erodeF w h K (dilateF w h K f))) (dilateF w h K f) := by
  intro p hp
  have h1 : leD w h (dilateF w h K (erodeF w h K (dilateF w h K f)))
      (dilateF w h K f) :=
    (dilate_le_iff_le_erode hsym (erodeF_bOn w h K (dilateF w h K f))).mpr
      (leD_refl w h (erodeF w h K (dilateF w h K f)))
  have h2 : leD w h (dilateF w h K f)
      (dilateF w h K (erodeF w h K (dilateF w h K f))) :=
    dilateF_mono (le_closeF hsym hf)
  exact le_antisymm (h1 p hp) (h2 p hp)

theorem openF_idem {w h : ℕ} {K : List Pt} {f : Pt → ℕ} (hsym : symmK K) :
    eqD w h (openF w h K (openF w h K f)) (openF w h K f) := by
  have h1 : eqD w h (erodeF w h K (openF w h K f)) (erodeF w h K f) :=
    eps_delta_eps hsym
  intro p hp
  have := dilateF_congr (K := K) h1 p hp
  exact this

theorem closeF_idem {w h : ℕ} {K : List Pt} {f : Pt → ℕ} (hsym : symmK K)
    (hf : bOn w h f) :
    eqD w h (closeF w h K (closeF w h K f)) (closeF w h K f) := by
  have h1 : eqD w h (dilateF w h K (closeF w h K f)) (dilateF w h K f) :=
    delta_eps_delta hsym hf
  intro p hp
  exact erodeF_congr (K := K) h1 p hp

/-- Idempotence of the open-then-close alternating filter. -/
theorem openCloseF_idem {w h : ℕ} {K : List Pt} {f : Pt → ℕ} (hsym : symmK K) :
    eqD w h (closeF w h K (openF w h K (closeF w h K (openF w h K f))))
      (closeF w h K (openF w h K f)) := by
  have hA : bOn w h (openF w h K f) :=
    dilateF_bOn (erodeF_bOn w h K f)
  have hup : leD w h
      (closeF w h K (openF w h K (closeF w h K (openF w h K f))))
      (closeF w h K (openF w h K f)) := by
    have s1 : leD w h (openF w h K (closeF w h K (openF w h K f)))
        (closeF w h K (openF w h K f)) := openF_le hsym
    have s2 := erodeF_mono (K := K) (dilateF_mono (K := K) s1)
    intro p hp
    refine le_trans (s2 p hp) ?_
    exact (closeF_idem hsym hA p hp).le
  have hdown : leD w h (closeF w h K (openF w h K f))
      (closeF w h K (openF w h K (closeF w h K (openF w h K f)))) := by
    have s1 : leD w h (openF w h K f)
        (openF w h K (closeF w h K (openF w h K f))) := by
      have s0 : leD w h (openF w h K (openF w h K f))
          (openF w h K (closeF w h K (openF w h K f))) :=
        dilateF_mono (erodeF_mono (le_closeF hsym hA))
      intro p hp
      refine le_trans ?_ (s0 p hp)
      exact (openF_idem hsym p hp).ge
    exact erodeF_mono (dilateF_mono s1)
  intro p hp
  exact le_antisymm (hup p hp) (hdown p hp)

theorem kEllipse3_symm : symmK kEllipse3 := by unfold symmK; decide

/-- C9: the mask cleanup is idempotent: for every binary mask (so in
particular for every mask already free of single-pixel artifacts),
post-processing twice gives the same mask as post-processing once, pixel
for pixel on the mask domain. -/
theorem C9_postProcess_idempotent (m : Img) (hm : twoValuedOn m 255) :
    ∀ p ∈ domain m.w m.h,
      (postProcessMask (postProcessMask m)).pix p = (postProcessMask m).pix p := by
  intro p hp
  exact openCloseF_idem kEllipse3_symm p (mem_domain.mp hp)

/-- C9 witness: a concrete binary 1 x 1 mask on which the double cleanup
provably coincides with the single cleanup. -/
theorem C9_postProcess_idempotent_witness :
    twoValuedOn maskF 255 ∧
      ∀ p ∈ domain maskF.w maskF.h,
        (postProcessMask (postProcessMask maskF)).pix p =
          (postProcessMask maskF).pix p :=
  ⟨by unfold twoValuedOn; decide,
    C9_postProcess_idempotent maskF (by unfold twoValuedOn; decide)⟩

/-! ### Two-valued preservation and the amended mask-range invariant -/

theorem erodeF_twoV {w h : ℕ} {K : List Pt} {f : Pt → ℕ} {v : ℕ}
    (h0 : ((0, 0) : Pt) ∈ K) (h255 : v ≤ 255)
    (hf : ∀ p : Pt, inB w h p → f p = 0 ∨ f p = v) :
    ∀ p : Pt, inB w h p → erodeF w h K f p = 0 ∨ erodeF w h K f p = v := by
  intro p hp
  simp only [erodeF, if_pos hp]
  refine listMin_two _ v ?_ h255 ?_
  · intro hnil
    have := self_mem_kernelPts h0 hp (K := K)
    simp [List.map_eq_nil_iff] at hnil
    rw [hnil] at this
    cases this
  · rintro a ha
    rcases List.mem_map.mp ha with ⟨q, hq, rfl⟩
    exact hf q (mem_kernelPts.mp hq).2

theorem dilateF_twoV {w h : ℕ} {K : List Pt} {f : Pt → ℕ} {v : ℕ}
    (hf : ∀ p : Pt, inB w h p → f p = 0 ∨ f p = v) :
    ∀ p : Pt, inB w h p → dilateF w h K f p = 0 ∨ dilateF w h K f p = v := by
  intro p hp
  simp only [dilateF, if_pos hp]
  refine listMax_two _ v ?_
  rintro a ha
  rcases List.mem_map.mp ha with ⟨q, hq, rfl⟩
  exact hf q (mem_kernelPts.mp hq).2

theorem closeF_twoV {w h : ℕ} {K : List Pt} {f : Pt → ℕ} {v : ℕ}
    (h0 : ((0, 0) : Pt) ∈ K) (h255 : v ≤ 255)
    (hf : ∀ p : Pt, inB w h p → f p = 0 ∨ f p = v) :
    ∀ p : Pt, inB w h p → closeF w h K f p = 0 ∨ closeF w h K f p = v :=
  erodeF_twoV h0 h255 (dilateF_twoV hf)

theorem openCloseF_twoV {w h : ℕ} {K : List Pt} {f : Pt → ℕ} {v : ℕ}
    (h0 : ((0, 0) : Pt) ∈ K) (h255 : v ≤ 255)
    (hf : ∀ p : Pt, inB w h p → f p = 0 ∨ f p = v) :
    ∀ p : Pt, inB w h p →
      closeF w h K (openF w h K f) p = 0 ∨ closeF w h K (openF w h K f) p = v :=
  closeF_twoV h0 h255 (dilateF_twoV (erodeF_twoV h0 h255 hf))

theorem kEllipse3_center : ((0, 0) : Pt) ∈ kEllipse3 := by decide

/-- Shape of every successful watershed result: the input's dimensions and a
{0, 255}-valued mask, whatever the library distance field, circle
rasterizer and flood do. -/
theorem watershedOp_ok {ndist : Pt → ℚ} {disk : Pt → Finset Pt}
    {flood : Img → (Pt → ℤ) → Pt → ℤ} {img : Img} {wp : WatershedParams}
    {w : Img} (hw : watershedOp ndist disk flood img wp = .ok w) :
    w.w = img.w ∧ w.h = img.h ∧ twoValuedOn w 255 := by
  unfold watershedOp at hw
  split at hw
  · cases hw
  · split at hw
    · cases hw
    · rcases hw with ⟨⟩
      refine ⟨rfl, rfl, ?_⟩
      intro p hp
      refine closeF_twoV kEllipse3_center (le_refl 255) ?_ p (mem_domain.mp hp)
      intro q _
      dsimp only
      split
      · right; rfl
      · left; rfl

/-- C5 corrected (amended): every engine returns a mask with exactly the
source image's dimensions, and every mask pixel is two-valued — 0 or
saturate_cast(maxValue) for the threshold and adaptive engines (so 0 or 255
at the default maxValue = 255), and 0 or 255 for Otsu, region growing and
watershed; the post-processor preserves the dimensions and any two-valued
range.  The unqualified {0, 255} range of the original claim fails for
non-default maxValue (see the counterexample). -/
theorem C5_amended_mask_shape (gk : ℕ → List ℚ) (img : Img)
    (tp : ThresholdParams) (ap : AdaptiveParams) (s : Finset Pt)
    (ndist : Pt → ℚ) (disk : Pt → Finset Pt)
    (flood : Img → (Pt → ℤ) → Pt → ℤ) (wp : WatershedParams) (w : Img) :
    ((thresholdOp img tp).w = img.w ∧ (thresholdOp img tp).h = img.h ∧
      twoValuedOn (thresholdOp img tp) (satCastQ tp.maxValue)) ∧
    ((otsuThreshold img).w = img.w ∧ (otsuThreshold img).h = img.h ∧
      twoValuedOn (otsuThreshold img) 255) ∧
    ((adaptiveThresholdOp gk img ap).w = img.w ∧
      (adaptiveThresholdOp gk img ap).h = img.h ∧
      twoValuedOn (adaptiveThresholdOp gk img ap) (satCastQ ap.maxValue)) ∧
    ((maskImg img s).w = img.w ∧ (maskImg img s).h = img.h ∧
      twoValuedOn (maskImg img s) 255) ∧
    (watershedOp ndist disk flood img wp = .ok w →
      w.w = img.w ∧ w.h = img.h ∧ twoValuedOn w 255) ∧
    (∀ (m : Img) (v : ℕ), v ≤ 255 → twoValuedOn m v →
      (postProcessMask m).w = m.w ∧ (postProcessMask m).h = m.h ∧
        twoValuedOn (postProcessMask m) v) := by
  refine ⟨⟨rfl, rfl, ?_⟩, ⟨rfl, rfl, ?_⟩, ⟨rfl, rfl, ?_⟩, ⟨rfl, rfl, ?_⟩,
    fun hw => watershedOp_ok hw, fun m v h255 hm => ⟨rfl, rfl, ?_⟩⟩
  · intro p _
    unfold thresholdOp
    dsimp only
    split_ifs <;> simp
  · intro p _
    unfold otsuThreshold
    dsimp only
    split_ifs <;> simp
  · intro p _
    unfold adaptiveThresholdOp
    dsimp only
    split_ifs <;> simp
  · intro p _
    unfold maskImg
    dsimp only
    split_ifs <;> simp
  · intro p hp
    exact openCloseF_twoV kEllipse3_center h255
      (fun q hq => hm q (mem_domain.mpr hq)) p (mem_domain.mp hp)

/-- C5 amended witness: concrete instances — the threshold engine with
maxValue 100 yields a {0, 100}-valued mask, a successful manual-mode
watershed run yields a {0, 255}-valued mask of the input's dimensions, and
post-processing the all-255 mask keeps it {0, 255}-valued. -/
theorem C5_amended_mask_shape_witness :
    twoValuedOn (thresholdOp imgA thrP100) (satCastQ thrP100.maxValue) ∧
    (∃ w, watershedOp ndist0 disk0 flood0 imgA wsManual = .ok w ∧
      w.w = imgA.w ∧ twoValuedOn w 255) ∧
    twoValuedOn (postProcessMask maskF) 255 := by
  refine ⟨(C5_amended_mask_shape gk0 imgA thrP100 {} ∅ ndist0 disk0 flood0
    wsManual emptyImg).1.2.2, ⟨_, rfl, ?_, ?_⟩, ?_⟩
  · exact ((C5_amended_mask_shape gk0 imgA thrP100 {} ∅ ndist0 disk0 flood0
      wsManual _).2.2.2.2.1 rfl).1
  · exact ((C5_amended_mask_shape gk0 imgA thrP100 {} ∅ ndist0 disk0 flood0
      wsManual _).2.2.2.2.1 rfl).2.2
  · exact ((C5_amended_mask_shape gk0 imgA thrP100 {} ∅ ndist0 disk0 flood0
      wsManual emptyImg).2.2.2.2.2 maskF 255 (le_refl 255)
      (by unfold twoValuedOn; decide)).2.2

/-! ### Region-growing lemmas -/

theorem mem_pushList {img : Img} {tol : ℚ} {mask : Finset Pt}
    {current q : Pt} :
    q ∈ pushList img tol mask current ↔
      (∃ o ∈ nbrOffsets, q = (current.1 + o.1, current.2 + o.2)) ∧
      inB img.w img.h q ∧ q ∉ mask ∧
      ((|(img.pix q : ℤ) - (img.pix current : ℤ)| : ℤ) : ℚ) ≤ tol := by
  unfold pushList
  simp only [List.mem_filterMap]
  constructor
  · rintro ⟨o, ho, hcond⟩
    split at hcond
    · rcases hcond with ⟨⟩
      rename_i hc
      exact ⟨⟨o, ho, rfl⟩, hc⟩
    · cases hcond
  · rintro ⟨⟨o, ho, rfl⟩, h1, h2, h3⟩
    refine ⟨o, ho, ?_⟩
    rw [if_pos ⟨h1, h2, h3⟩]

theorem pushList_length_le (img : Img) (tol : ℚ) (mask : Finset Pt)
    (current : Pt) : (pushList img tol mask current).length ≤ 8 :=
  le_trans (List.length_filterMap_le _ _) (by rfl)

/-- With enough fuel — any amount exceeding the stack size plus nine steps
per unclaimed in-bounds pixel — the stack loop terminates normally (in
particular it never hits the fuel bound and, when every stack entry is in
bounds, never faults). -/
theorem growLoop_ok (img : Img) (tol : ℚ) : ∀ (fuel : ℕ) (mask : Finset Pt)
    (stack : List Pt), (∀ x ∈ stack, inB img.w img.h x) →
    stack.length + 9 * ((domain img.w img.h) \ mask).card < fuel →
    ∃ m, growLoop img tol fuel mask stack = .ok m := by
  intro fuel
  induction fuel with
  | zero => intro mask stack _ hlt; omega
  | succ fuel ih =>
    intro mask stack hstack hlt
    match stack with
    | [] => exact ⟨mask, rfl⟩
    | current :: rest =>
      have hcur : inB img.w img.h current := hstack current (by simp)
      by_cases hmem : current ∈ mask
      · have hrest : ∀ x ∈ rest, inB img.w img.h x :=
          fun x hx => hstack x (List.mem_cons_of_mem current hx)
        rcases ih mask rest hrest (by simp at hlt ⊢; omega) with ⟨m, hm⟩
        exact ⟨m, by simp only [growLoop, if_pos hcur, if_pos hmem, hm]⟩
      · have hdm : current ∈ (domain img.w img.h) \ mask :=
          Finset.mem_sdiff.mpr ⟨mem_domain.mpr hcur, hmem⟩
        have hcard : ((domain img.w img.h) \ insert current mask).card =
            ((domain img.w img.h) \ mask).card - 1 := by
          rw [Finset.sdiff_insert, Finset.card_erase_of_mem hdm]
        have hcard1 : 1 ≤ ((domain img.w img.h) \ mask).card :=
          Finset.card_pos.mpr ⟨current, hdm⟩
        have hstack2 : ∀ x ∈
            (pushList img tol (insert current mask) current).reverse ++ rest,
            inB img.w img.h x := by
          intro x hx
          rcases List.mem_append.mp hx with hx | hx
          · exact (mem_pushList.mp (List.mem_reverse.mp hx)).2.1
          · exact hstack x (List.mem_cons_of_mem current hx)
        have hlen : ((pushList img tol (insert current mask) current).reverse
            ++ rest).length + 9 *
            ((domain img.w img.h) \ insert current mask).card < fuel := by
          have h8 := pushList_length_le img tol (insert current mask) current
          simp only [List.length_append, List.length_reverse]
          simp only [List.length_cons] at hlt
          omega
        rcases ih (insert current mask) _ hstack2 hlen with ⟨m, hm⟩
        exact ⟨m, by simp only [growLoop, if_pos hcur, if_neg hmem, hm]⟩

theorem growLoop_subset (img : Img) (tol : ℚ) : ∀ (fuel : ℕ)
    (mask : Finset Pt) (stack : List Pt) (m : Finset Pt),
    growLoop img tol fuel mask stack = .ok m → mask ⊆ m := by
  intro fuel
  induction fuel with
  | zero => intro mask stack m hm; cases hm
  | succ fuel ih =>
    intro mask stack m hm
    match stack with
    | [] =>
      simp only [growLoop, Except.ok.injEq] at hm
      subst hm
      exact Finset.Subset.refl _
    | current :: rest =>
      by_cases hcur : inB img.w img.h current
      · simp only [growLoop, if_pos hcur] at hm
        by_cases hmem : current ∈ mask
        · rw [if_pos hmem] at hm
          exact ih mask rest m hm
        · rw [if_neg hmem] at hm
          exact subset_trans (Finset.subset_insert current mask)
            (ih (insert current mask) _ m hm)
      · simp only [growLoop, if_neg hcur] at hm
        cases hm

theorem growLoop_stack_mem (img : Img) (tol : ℚ) : ∀ (fuel : ℕ)
    (mask : Finset Pt) (stack : List Pt) (m : Finset Pt),
    growLoop img tol fuel mask stack = .ok m → ∀ x ∈ stack, x ∈ m := by
  intro fuel
  induction fuel with
  | zero => intro mask stack m hm; cases hm
  | succ fuel ih =>
    intro mask stack m hm
    match stack with
    | [] => intro x hx; cases hx
    | current :: rest =>
      by_cases hcur : inB img.w img.h current
      · simp only [growLoop, if_pos hcur] at hm
        by_cases hmem : current ∈ mask
        · rw [if_pos hmem] at hm
          intro x hx
          rcases List.mem_cons.mp hx with rfl | hx
          · exact growLoop_subset img tol fuel mask rest m hm hmem
          · exact ih mask rest m hm x hx
        · rw [if_neg hmem] at hm
          intro x hx
          rcases List.mem_cons.mp hx with rfl | hx
          · exact growLoop_subset img tol fuel _ _ m hm
              (Finset.mem_insert_self x mask)
          · exact ih _ _ m hm x (List.mem_append.mpr (Or.inr hx))
      · simp only [growLoop, if_neg hcur] at hm
        cases hm

theorem growLoop_sound (img : Img) (tol : ℚ) (P : Pt → Prop)
    (hstep : ∀ p q : Pt, P p →
      (∃ o ∈ nbrOffsets, q = (p.1 + o.1, p.2 + o.2)) →
      inB img.w img.h q →
      ((|(img.pix q : ℤ) - (img.pix p : ℤ)| : ℤ) : ℚ) ≤ tol → P q) :
    ∀ (fuel : ℕ) (mask : Finset Pt) (stack : List Pt) (m : Finset Pt),
    (∀ x ∈ mask, P x) → (∀ x ∈ stack, P x) →
    growLoop img tol fuel mask stack = .ok m → ∀ x ∈ m, P x := by
  intro fuel
  induction fuel with
  | zero => intro mask stack m _ _ hm; cases hm
  | succ fuel ih =>
    intro mask stack m hmask hstack hm
    match stack with
    | [] =>
      simp only [growLoop, Except.ok.injEq] at hm
      subst hm
      exact hmask
    | current :: rest =>
      by_cases hcur : inB img.w img.h current
      · simp only [growLoop, if_pos hcur] at hm
        by_cases hmem : current ∈ mask
        · rw [if_pos hmem] at hm
          exact ih mask rest m hmask
            (fun x hx => hstack x (List.mem_cons_of_mem current hx)) hm
        · rw [if_neg hmem] at hm
          have hPc : P current := hstack current (by simp)
          refine ih (insert current mask) _ m ?_ ?_ hm
          · intro x hx
            rcases Finset.mem_insert.mp hx with rfl | hx
            · exact hPc
            · exact hmask x hx
          · intro x hx
            rcases List.mem_append.mp hx with hx | hx
            · rcases mem_pushList.mp (List.mem_reverse.mp hx) with
                ⟨hoff, hbq, _, hdq⟩
              exact hstep current x hPc hoff hbq hdq
            · exact hstack x (List.mem_cons_of_mem current hx)
      · simp only [growLoop, if_neg hcur] at hm
        cases hm

theorem growLoop_closure (img : Img) (tol : ℚ) : ∀ (fuel : ℕ)
    (mask : Finset Pt) (stack : List Pt) (m : Finset Pt),
    growLoop img tol fuel mask stack = .ok m →
    ∀ p ∈ m, p ∉ mask → ∀ q : Pt,
      (∃ o ∈ nbrOffsets, q = (p.1 + o.1, p.2 + o.2)) →
      inB img.w img.h q →
      ((|(img.pix q : ℤ) - (img.pix p : ℤ)| : ℤ) : ℚ) ≤ tol → q ∈ m := by
  intro fuel
  induction fuel with
  | zero => intro mask stack m hm; cases hm
  | succ fuel ih =>
    intro mask stack m hm
    match stack with
    | [] =>
      simp only [growLoop, Except.ok.injEq] at hm
      subst hm
      intro p hp hnp
      exact absurd hp hnp
    | current :: rest =>
      by_cases hcur : inB img.w img.h current
      · simp only [growLoop, if_pos hcur] at hm
        by_cases hmem : current ∈ mask
        · rw [if_pos hmem] at hm
          exact ih mask rest m hm
        · rw [if_neg hmem] at hm
          intro p hp hnp q hoff hbq hdq
          by_cases hpc : p = current
          · subst hpc
            by_cases hq : q ∈ insert p mask
            · exact growLoop_subset img tol fuel _ _ m hm hq
            · refine growLoop_stack_mem img tol fuel _ _ m hm q ?_
              refine List.mem_append.mpr (Or.inl (List.mem_reverse.mpr ?_))
              exact mem_pushList.mpr ⟨hoff, hbq, hq, hdq⟩
          · refine ih _ _ m hm p hp ?_ q hoff hbq hdq
            intro hpin
            rcases Finset.mem_insert.mp hpin with h | h
            · exact hpc h
            · exact hnp h
      · simp only [growLoop, if_neg hcur] at hm
        cases hm

theorem growSeeds_subset (img : Img) (tol : ℚ) : ∀ (ss : List Pt)
    (mask m : Finset Pt), growSeeds img tol mask ss = .ok m → mask ⊆ m := by
  intro ss
  induction ss with
  | nil =>
    intro mask m hm
    simp only [growSeeds, Except.ok.injEq] at hm
    subst hm
    exact Finset.Subset.refl _
  | cons s ss ih =>
    intro mask m hm
    simp only [growSeeds] at hm
    split at hm
    · split at hm
      · exact ih mask m hm
      · split at hm
        · cases hm
        · rename_i mid hgl
          exact subset_trans (growLoop_subset img tol (growFuel img) mask [s] mid hgl)
            (ih mid m hm)
    · cases hm

theorem growSeeds_seeds_mem (img : Img) (tol : ℚ) : ∀ (ss : List Pt)
    (mask m : Finset Pt), growSeeds img tol mask ss = .ok m →
    ∀ s ∈ ss, s ∈ m := by
  intro ss
  induction ss with
  | nil => intro mask m _ s hs; cases hs
  | cons s0 ss ih =>
    intro mask m hm s hs
    simp only [growSeeds] at hm
    split at hm
    · rename_i hb0
      split at hm
      · rename_i hmem
        rcases List.mem_cons.mp hs with rfl | hs
        · exact growSeeds_subset img tol ss mask m hm hmem
        · exact ih mask m hm s hs
      · split at hm
        · cases hm
        · rename_i mid hgl
          rcases List.mem_cons.mp hs with rfl | hs
          · exact growSeeds_subset img tol ss mid m hm
              (growLoop_stack_mem img tol (growFuel img) mask [s] mid hgl s (by simp))
          · exact ih mid m hm s hs
    · cases hm

theorem growSeeds_sound (img : Img) (tol : ℚ) (P : Pt → Prop)
    (hstep : ∀ p q : Pt, P p →
      (∃ o ∈ nbrOffsets, q = (p.1 + o.1, p.2 + o.2)) →
      inB img.w img.h q →
      ((|(img.pix q : ℤ) - (img.pix p : ℤ)| : ℤ) : ℚ) ≤ tol → P q) :
    ∀ (ss : List Pt) (mask m : Finset Pt),
    (∀ x ∈ mask, P x) → (∀ s ∈ ss, P s) →
    growSeeds img tol mask ss = .ok m → ∀ x ∈ m, P x := by
  intro ss
  induction ss with
  | nil =>
    intro mask m hmask _ hm
    simp only [growSeeds, Except.ok.injEq] at hm
    subst hm
    exact hmask
  | cons s ss ih =>
    intro mask m hmask hss hm
    simp only [growSeeds] at hm
    split at hm
    · split at hm
      · exact ih mask m hmask (fun x hx => hss x (List.mem_cons_of_mem s hx)) hm
      · split at hm
        · cases hm
        · rename_i mid hgl
          refine ih mid m ?_ (fun x hx => hss x (List.mem_cons_of_mem s hx)) hm
          refine growLoop_sound img tol P hstep (growFuel img) mask [s] mid
            hmask ?_ hgl
          intro x hx
          rcases List.mem_cons.mp hx with rfl | hx
          · exact hss x (by simp)
          · cases hx
    · cases hm

theorem growSeeds_closure (img : Img) (tol : ℚ) : ∀ (ss : List Pt)
    (mask m : Finset Pt), growSeeds img tol mask ss = .ok m →
    ∀ p ∈ m, p ∉ mask → ∀ q : Pt,
      (∃ o ∈ nbrOffsets, q = (p.1 + o.1, p.2 + o.2)) →
      inB img.w img.h q →
      ((|(img.pix q : ℤ) - (img.pix p : ℤ)| : ℤ) : ℚ) ≤ tol → q ∈ m := by
  intro ss
  induction ss with
  | nil =>
    intro mask m hm p hp hnp
    simp only [growSeeds, Except.ok.injEq] at hm
    subst hm
    exact absurd hp hnp
  | cons s ss ih =>
    intro mask m hm p hp hnp q hoff hbq hdq
    simp only [growSeeds] at hm
    split at hm
    · split at hm
      · exact ih mask m hm p hp hnp q hoff hbq hdq
      · split at hm
        · cases hm
        · rename_i mid hgl
          by_cases hpmid : p ∈ mid
          · refine growSeeds_subset img tol ss mid m hm ?_
            exact growLoop_closure img tol (growFuel img) mask [s] mid hgl
              p hpmid hnp q hoff hbq hdq
          · exact ih mid m hm p hp hpmid q hoff hbq hdq
    · cases hm

theorem Reach_mono {img : Img} {t1 t2 : ℚ} {seeds : List Pt} {x : Pt}
    (h12 : t1 ≤ t2) (hx : Reach img t1 seeds x) : Reach img t2 seeds x := by
  induction hx with
  | seed hs => exact Reach.seed hs
  | step _ hoff hb hd ih => exact Reach.step ih hoff hb (le_trans hd h12)

/-- Soundness half of the region-growing characterization: every pixel of a
successful run is chain-reachable from a seed. -/
theorem regionGrowing_sound {img : Img} {p : RegionGrowingParams}
    {m : Finset Pt} (hm : regionGrowing img p = .ok m) :
    ∀ x ∈ m, Reach img p.threshold p.seeds x := by
  unfold regionGrowing at hm
  split at hm
  · cases hm
  · exact growSeeds_sound img p.threshold (Reach img p.threshold p.seeds)
      (fun a b hp hoff hb hd => Reach.step hp hoff hb hd) p.seeds ∅ m
      (by simp) (fun s hs => Reach.seed hs) hm

/-- Completeness half: every chain-reachable pixel ends up in the mask of a
successful run. -/
theorem regionGrowing_complete {img : Img} {p : RegionGrowingParams}
    {m : Finset Pt} (hm : regionGrowing img p = .ok m) :
    ∀ x : Pt, Reach img p.threshold p.seeds x → x ∈ m := by
  unfold regionGrowing at hm
  split at hm
  · cases hm
  · intro x hx
    induction hx with
    | seed hs => exact growSeeds_seeds_mem img p.threshold p.seeds ∅ m hm _ hs
    | step _ hoff hb hd ih =>
      exact growSeeds_closure img p.threshold p.seeds ∅ m hm _ ih
        (Finset.not_mem_empty _) _ hoff hb hd

/-- C7: the only admission test of the frontier loop is local: when the
loop pops an unclaimed in-bounds pixel, it claims it and appends exactly
those pixels q that are 8-neighbor offsets of the current pixel, in
bounds, still unclaimed, and satisfy
|intensity(q) - intensity(current)| <= tolerance — the intensity is
compared against the current frontier pixel, and the original seed plays
no role in the test. -/
theorem C7_admission_is_local (img : Img) (tol : ℚ) (fuel : ℕ)
    (mask : Finset Pt) (current : Pt) (rest : List Pt)
    (hb : inB img.w img.h current) (hm : current ∉ mask) :
    ∃ admitted : List Pt,
      growLoop img tol (fuel + 1) mask (current :: rest) =
        growLoop img tol fuel (insert current mask) (admitted ++ rest) ∧
      ∀ q : Pt, q ∈ admitted ↔
        ((∃ o ∈ nbrOffsets, q = (current.1 + o.1, current.2 + o.2)) ∧
          inB img.w img.h q ∧ q ∉ insert current mask ∧
          ((|(img.pix q : ℤ) - (img.pix current : ℤ)| : ℤ) : ℚ) ≤ tol) := by
  refine ⟨(pushList img tol (insert current mask) current).reverse, ?_, ?_⟩
  · simp only [growLoop, if_pos hb, if_neg hm]
  · intro q
    rw [List.mem_reverse]
    exact mem_pushList

/-- C7 witness: the admission step applied at a concrete state of the
2 x 2 checkerboard run. -/
theorem C7_admission_is_local_witness :
    ∃ admitted : List Pt,
      growLoop imgB 20 (1 + 1) (∅ : Finset Pt) [((0, 0) : Pt)] =
        growLoop imgB 20 1 (insert ((0, 0) : Pt) (∅ : Finset Pt)) (admitted ++ []) ∧
      ∀ q : Pt, q ∈ admitted ↔
        ((∃ o ∈ nbrOffsets, q = (((0, 0) : Pt).1 + o.1, ((0, 0) : Pt).2 + o.2)) ∧
          inB imgB.w imgB.h q ∧ q ∉ insert ((0, 0) : Pt) (∅ : Finset Pt) ∧
          ((|(imgB.pix q : ℤ) - (imgB.pix ((0, 0) : Pt) : ℤ)| : ℤ) : ℚ) ≤ 20) :=
  C7_admission_is_local imgB 20 1 ∅ (0, 0) [] (by decide) (by decide)

/-- C8: raising the intensity tolerance never shrinks the region: for the
same image, the same seed list and the same connectivity, a successful run
at tolerance t1 produces a subset of the successful run at any tolerance
t2 > t1. -/
theorem C8_tolerance_monotone (img : Img) (p1 p2 : RegionGrowingParams)
    (m1 m2 : Finset Pt) (hs : p1.seeds = p2.seeds)
    (hc : p1.connectivity = p2.connectivity)
    (ht : p1.threshold < p2.threshold)
    (h1 : regionGrowing img p1 = .ok m1)
    (h2 : regionGrowing img p2 = .ok m2) : m1 ⊆ m2 := by
  intro x hx
  have hr : Reach img p1.threshold p1.seeds x := regionGrowing_sound h1 x hx
  have hr2 : Reach img p2.threshold p2.seeds x := by
    rw [← hs]
    exact Reach_mono ht.le hr
  exact regionGrowing_complete h2 x hr2

/-- C8 witness: on the 2 x 2 ramp, the tolerance-5 region {(0,0),(1,0),(1,1)}
is contained in the tolerance-20 region (the full image). -/
theorem C8_tolerance_monotone_witness :
    rgC5.threshold < rgC20.threshold ∧
    regionGrowing imgC rgC5 = .ok {((0, 0) : Pt), (1, 0), (1, 1)} ∧
    regionGrowing imgC rgC20 = .ok {((0, 0) : Pt), (1, 0), (0, 1), (1, 1)} ∧
    ({((0, 0) : Pt), (1, 0), (1, 1)} : Finset Pt) ⊆
      {((0, 0) : Pt), (1, 0), (0, 1), (1, 1)} :=
  ⟨by decide, by decide, by decide,
    C8_tolerance_monotone imgC rgC5 rgC20
      {((0, 0) : Pt), (1, 0), (1, 1)}
      {((0, 0) : Pt), (1, 0), (0, 1), (1, 1)}
      rfl rfl (by decide) (by decide) (by decide)⟩

theorem growSeeds_safe (img : Img) (tol : ℚ) : ∀ (ss : List Pt)
    (mask : Finset Pt), (∀ s ∈ ss, inB img.w img.h s) →
    ∃ m, growSeeds img tol mask ss = .ok m := by
  intro ss
  induction ss with
  | nil => intro mask _; exact ⟨mask, rfl⟩
  | cons s ss ih =>
    intro mask hss
    have hbs : inB img.w img.h s := hss s (by simp)
    have hrest : ∀ x ∈ ss, inB img.w img.h x :=
      fun x hx => hss x (List.mem_cons_of_mem s hx)
    by_cases hmem : s ∈ mask
    · rcases ih mask hrest with ⟨m, hm⟩
      exact ⟨m, by simp only [growSeeds, if_pos hbs, if_pos hmem, hm]⟩
    · have hfuel : ([s] : List Pt).length +
          9 * ((domain img.w img.h) \ mask).card < growFuel img := by
        have hle : ((domain img.w img.h) \ mask).card ≤
            (domain img.w img.h).card :=
          Finset.card_le_card (Finset.sdiff_subset)
        simp only [List.length_singleton, growFuel]
        omega
      rcases growLoop_ok img tol (growFuel img) mask [s]
        (by intro x hx; rcases List.mem_cons.mp hx with rfl | hx
            · exact hbs
            · cases hx) hfuel with ⟨mid, hgl⟩
      rcases ih mid hrest with ⟨m, hm⟩
      exact ⟨m, by simp only [growSeeds, if_pos hbs, if_neg hmem, hgl, hm]⟩

/-- C10: memory safety of region growing under the documented seed
precondition: when every seed lies within the image bounds, no pixel
access faults — the run returns a mask instead of the out-of-bounds error
that a faulting checked access (cv::Mat::at) would raise.  Neighbor
accesses are guarded by the loop's own bounds test; the per-seed accesses
are unguarded and are covered exactly by the precondition. -/
theorem C10_in_bounds_seeds_safe (img : Img) (p : RegionGrowingParams)
    (hseeds : ∀ s ∈ p.seeds, inB img.w img.h s) (hne : p.seeds ≠ []) :
    ∃ m, regionGrowing img p = .ok m := by
  unfold regionGrowing
  rw [if_neg hne]
  exact growSeeds_safe img p.threshold p.seeds ∅ hseeds

/-- C10 witness: the in-bounds seed (0,0) on the 2 x 2 checkerboard gives a
fault-free run. -/
theorem C10_in_bounds_seeds_safe_witness :
    (∀ s ∈ rgB4.seeds, inB imgB.w imgB.h s) ∧ rgB4.seeds ≠ [] ∧
      ∃ m, regionGrowing imgB rgB4 = .ok m :=
  ⟨by decide, by decide, C10_in_bounds_seeds_safe imgB rgB4 (by decide) (by decide)⟩

end MedicalVision
